import Mathlib

/-!
Shallow embedding of the PageRank compute engine of `pagerank-webshow`.

Conventions of the embedding:
* JavaScript `number` / C++ `double` values that carry probability mass are
  modelled as exact rationals (`ℚ`); the spec's `1e-6` drift tolerance is the
  rational `1/1000000`.
* JS typed arrays (`Float64Array`, `Uint32Array`) are modelled as `List`;
  an out-of-range `List.set` is a no-op, matching the silently ignored
  out-of-range write on a JS typed array.  The `Uint32Array` visit counter of
  `randomWalkJS` wraps modulo `2 ^ 32` on increment, which the embedding keeps.
* `Math.random()` is modelled by an explicit list of draws in `[0,1)`; a run
  that exhausts its supply of draws is `Option.none` (it corresponds to no
  terminating execution of the source).
* The worker (`pagerank.worker.ts`) is modelled as a message processor; its
  `PROGRESS` emissions are elided, `RESULT` and `ERROR` messages are kept.
-/

namespace PageRank

/-- An edge of the graph, `src/types/graph.ts` `Edge`. -/
structure Edge where
  source : Nat
  target : Nat
deriving DecidableEq, Repr

/-- The graph record, `src/types/graph.ts` `Graph`. -/
structure Graph where
  nodes : Nat
  edges : List Edge
  isDirected : Bool
deriving DecidableEq, Repr

/-- Data-model invariant from the spec: every edge endpoint is a valid node
index. -/
def ValidGraph (g : Graph) : Prop :=
  ∀ e ∈ g.edges, e.source < g.nodes ∧ e.target < g.nodes

instance (g : Graph) : Decidable (ValidGraph g) := by
  unfold ValidGraph; infer_instance

/-- The spec's drift tolerance `1e-6` as an exact rational. -/
def tol : ℚ := 1 / 1000000

/-! ## Power iteration (`src/algorithms/powerIteration.ts`, `powerIterationJS`) -/

/-- `outDegree`: the `Float64Array` filled by
`for (const edge of graph.edges) outDegree[edge.source]++`. -/
def outDegreeList (g : Graph) : List ℚ :=
  g.edges.foldl (fun acc e => acc.set e.source (acc.getD e.source 0 + 1))
    (List.replicate g.nodes 0)

/-- `danglingNodes`: indices `i < n` with `outDegree[i] === 0`. -/
def danglingNodes (g : Graph) : List Nat :=
  (List.range g.nodes).filter (fun i => decide ((outDegreeList g).getD i 0 = 0))

/-- One sweep of the power-iteration loop body: fill `newPr` with the
teleportation term, add the dangling contribution to every entry, then add
`alpha * pr[edge.source] / outDegree[edge.source]` to `newPr[edge.target]`
for every edge, in edge order. -/
def powerStep (g : Graph) (alpha : ℚ) (pr : List ℚ) : List ℚ :=
  let n : ℚ := g.nodes
  let outDeg := outDegreeList g
  let teleportation := (1 - alpha) / n
  let danglingSum := ((danglingNodes g).map (fun i => pr.getD i 0)).sum
  let danglingContribution := alpha * danglingSum / n
  let base := (List.replicate g.nodes teleportation).map
    (fun x => x + danglingContribution)
  g.edges.foldl
    (fun acc e =>
      acc.set e.target (acc.getD e.target 0 + alpha * pr.getD e.source 0 / outDeg.getD e.source 0))
    base

/-- `powerIterationJS`: initialize `pr[i] = 1/n`, run `iterations` sweeps,
then rescale by the vector sum only when it deviates from `1` by more than
`1e-6`. -/
def powerIterationJS (g : Graph) (alpha : ℚ) (iterations : Nat) : List ℚ :=
  let init := List.replicate g.nodes ((1 : ℚ) / g.nodes)
  let pr := (powerStep g alpha)^[iterations] init
  let s := pr.sum
  if |s - 1| > tol then pr.map (fun x => x / s) else pr

/-! ### Specification-side power iteration (for the refinement claim)

These definitions follow the spec's wording (§4.2): `outDegree[i]` is the
count of edges whose source is `i`, `danglingSum` is the sum of `pr` over
nodes with zero out-degree, and the update is stated entrywise as a sum over
the edges targeting the entry. -/

/-- Spec-side out-degree: the count of edges whose source is `i`. -/
def specOutDegree (g : Graph) (i : Nat) : Nat :=
  (g.edges.filter (fun e => decide (e.source = i))).length

/-- Spec-side dangling sum: `Σ pr[node]` over nodes with zero out-degree. -/
def specDanglingSum (g : Graph) (pr : List ℚ) : ℚ :=
  (((List.range g.nodes).filter (fun i => decide (specOutDegree g i = 0))).map
    (fun i => pr.getD i 0)).sum

/-- Spec-side update:
`newPr[i] = (1-alpha)/n + alpha*danglingSum/n + Σ_{edges source→i} alpha*pr[source]/outDegree[source]`. -/
def specUpdate (g : Graph) (alpha : ℚ) (pr : List ℚ) : List ℚ :=
  (List.range g.nodes).map (fun i =>
    (1 - alpha) / g.nodes + alpha * specDanglingSum g pr / g.nodes
      + ((g.edges.filter (fun e => decide (e.target = i))).map
          (fun e => alpha * pr.getD e.source 0 / (specOutDegree g e.source : ℚ))).sum)

/-- Spec-side kernel: initialize uniformly, apply the update exactly
`iterations` times, rescale by the vector sum only when it deviates from `1`
by more than `1e-6`. -/
def specPowerIteration (g : Graph) (alpha : ℚ) (iterations : Nat) : List ℚ :=
  let init := List.replicate g.nodes ((1 : ℚ) / g.nodes)
  let pr := (specUpdate g alpha)^[iterations] init
  let s := pr.sum
  if |s - 1| > tol then pr.map (fun x => x / s) else pr

/-! ## Random walk (`src/algorithms/randomWalk.ts`, `randomWalkJS`)

The visit counter is a `Uint32Array`, so an increment wraps modulo `2 ^ 32`.
The walk functions are parameterized by that modulus `M` so that the same
text also denotes the mathematical (unwrapped) count at `M = 0`
(`x % 0 = x` on `Nat`). -/

/-- The modulus of the JS `Uint32Array` visit counter. -/
def u32 : Nat := 4294967296

/-- `adjacencyList`: `adjacencyList[edge.source].push(edge.target)` over the
edges in order, starting from `n` empty buckets. -/
def adjacencyList (g : Graph) : List (List Nat) :=
  g.edges.foldl (fun acc e => acc.set e.source (acc.getD e.source [] ++ [e.target]))
    (List.replicate g.nodes [])

/-- `visitCount[i]++` on a counter array wrapping modulo `M`. -/
def visitInc (M : Nat) (counts : List Nat) (i : Nat) : List Nat :=
  counts.set i ((counts.getD i 0 + 1) % M)

/-- The inner `while (Math.random() < alpha)` loop of one walk: consume a
draw for the loop test; on continuation, a dangling current node teleports to
`⌊draw * n⌋`, records the visit and breaks, otherwise the walk moves to
neighbour `⌊draw * neighbors.length⌋`, records the visit and loops.  Returns
the updated counter and the unconsumed draws, or `none` when the modelled
draw supply runs out (the single-draw case is `none` exactly when the loop
test consumes the last draw and asks for one more). -/
def walkLoop (M : Nat) (adj : List (List Nat)) (n : Nat) (alpha : ℚ) :
    Nat → List Nat → List ℚ → Option (List Nat × List ℚ)
  | _, _, [] => none
  | _, counts, [d] =>
    if d < alpha then none else some (counts, [])
  | current, counts, d :: d2 :: rest2 =>
    if d < alpha then
      let neighbors := adj.getD current []
      if neighbors.isEmpty then
        some (visitInc M counts (d2 * n).floor.toNat, rest2)
      else
        let next := neighbors.getD (d2 * neighbors.length).floor.toNat 0
        walkLoop M adj n alpha next (visitInc M counts next) rest2
    else
      some (counts, d2 :: rest2)

/-- `walksPerNode` walks from the start node `startNode`; each walk first
records the start visit. -/
def doWalks (M : Nat) (adj : List (List Nat)) (n : Nat) (alpha : ℚ) (startNode : Nat) :
    Nat → List Nat → List ℚ → Option (List Nat × List ℚ)
  | 0, counts, draws => some (counts, draws)
  | walks + 1, counts, draws =>
    match walkLoop M adj n alpha startNode (visitInc M counts startNode) draws with
    | none => none
    | some (counts2, draws2) => doWalks M adj n alpha startNode walks counts2 draws2

/-- The walk phase: the two nested `for` loops of `randomWalkJS`, yielding
the final counter array. -/
def randomWalkCounts (M : Nat) (g : Graph) (alpha : ℚ) (walksPerNode : Nat)
    (draws : List ℚ) : Option (List Nat × List ℚ) :=
  (List.range g.nodes).foldlM
    (fun (acc : List Nat × List ℚ) startNode =>
      doWalks M (adjacencyList g) g.nodes alpha startNode walksPerNode acc.1 acc.2)
    (List.replicate g.nodes 0, draws)

/-- `randomWalkJS`: run the walk phase on the `Uint32Array` counter; if
`totalVisits === 0` fall back to the uniform vector, otherwise normalize the
counts and apply the `1e-6` drift correction. -/
def randomWalkJS (g : Graph) (alpha : ℚ) (walksPerNode : Nat) (draws : List ℚ) :
    Option (List ℚ) :=
  match randomWalkCounts u32 g alpha walksPerNode draws with
  | none => none
  | some (visitCount, _) =>
    let totalVisits : Nat := visitCount.sum
    if totalVisits = 0 then some (List.replicate g.nodes ((1 : ℚ) / g.nodes))
    else
      let pr := visitCount.map (fun c : Nat => (c : ℚ) / (totalVisits : ℚ))
      let s := pr.sum
      if |s - 1| > tol then some (pr.map (fun x => x / s)) else some pr

/-! ## Native kernel bridge (`src/workers/pagerank.worker.ts`,
`executePowerIterationWASM` / `executeRandomWalkWASM`)

Both functions have the same foreign-memory shape: three `_malloc` calls
(edge sources, edge targets, result), then a `try { copy; kernel; read }
finally { _free × 3 }` block.  The mallocs precede the `try`.  Each fallible
foreign step is driven by an oracle recording whether it returns normally;
the value computed by the opaque compiled kernel is a parameter.  The model
records the allocation/release events in order. -/

/-- A foreign-memory event: allocation or release of buffer 1, 2 or 3
(edge sources, edge targets, result). -/
inductive MemEvent where
  | alloc (which : Nat)
  | free (which : Nat)
deriving DecidableEq, Repr

/-- Oracle for one bridge invocation: whether each `_malloc` returns
normally and whether the compiled kernel call returns normally. -/
structure BridgeEnv where
  malloc1Ok : Bool
  malloc2Ok : Bool
  malloc3Ok : Bool
  kernelOk : Bool
deriving DecidableEq, Repr

/-- One `_malloc` call: on success append the allocation event, on failure
the error propagates with the events so far. -/
def runMalloc (ok : Bool) (which : Nat) (log : List MemEvent) :
    Except String (List MemEvent) :=
  if ok then .ok (log ++ [.alloc which]) else .error "allocation failed"

/-- The common foreign-memory shape of `executePowerIterationWASM` and
`executeRandomWalkWASM`: three unguarded `_malloc`s, then the `try/finally`
whose `finally` frees all three buffers; the `try` body's kernel call either
returns `kres` or raises.  Returns the event log and the outcome. -/
def bridgeRun (env : BridgeEnv) (kres : List ℚ) :
    List MemEvent × Except String (List ℚ) :=
  match runMalloc env.malloc1Ok 1 [] with
  | .error e => ([], .error e)
  | .ok log1 =>
    match runMalloc env.malloc2Ok 2 log1 with
    | .error e => (log1, .error e)
    | .ok log2 =>
      match runMalloc env.malloc3Ok 3 log2 with
      | .error e => (log2, .error e)
      | .ok log3 =>
        let fin := [MemEvent.free 1, MemEvent.free 2, MemEvent.free 3]
        if env.kernelOk then (log3 ++ fin, .ok kres)
        else (log3 ++ fin, .error "kernel call raised")

/-- `executePowerIterationWASM`: the bridge shape, with the compiled
power-iteration kernel's output as the opaque result value. -/
def executePowerIterationWASM (env : BridgeEnv) (kres : List ℚ) :
    List MemEvent × Except String (List ℚ) :=
  bridgeRun env kres

/-- `executeRandomWalkWASM`: the bridge shape, with the compiled
random-walk kernel's output as the opaque result value. -/
def executeRandomWalkWASM (env : BridgeEnv) (kres : List ℚ) :
    List MemEvent × Except String (List ℚ) :=
  bridgeRun env kres

/-- A buffer leaks in a log when it is allocated but never freed. -/
def Leaks (log : List MemEvent) (which : Nat) : Prop :=
  MemEvent.alloc which ∈ log ∧ MemEvent.free which ∉ log

instance (log : List MemEvent) (which : Nat) : Decidable (Leaks log which) := by
  unfold Leaks; infer_instance

/-! ## Worker message handling (`src/workers/pagerank.worker.ts`,
`handleCompute` and `self.onmessage`)

The worker is stateless with respect to message outputs (its only mutable
cell is the cached wasm module handle, which affects load timing, not
results), so processing is modelled per message.  Each message carries the
runtime environment it executes under: the random draws consumed by a
`random-walk-js` task and the bridge oracle with the opaque kernel output
for the wasm tasks.  A `random-walk-js` run that never terminates in the
model (`none`) emits nothing. -/

/-- Runtime environment of one worker message. -/
structure WorkerEnv where
  draws : List ℚ
  bridge : BridgeEnv
  kres : List ℚ
deriving DecidableEq, Repr

/-- A message arriving at `self.onmessage`: `COMPUTE` with the task id, the
algorithm identifier string, the graph and the parameters (`alpha` plus the
iteration/walk count), `CANCEL` with the task id, or an unknown type. -/
inductive WorkerMsg where
  | compute (taskId : String) (algorithm : String) (g : Graph) (alpha : ℚ) (count : Nat)
  | cancel (taskId : String)
  | unknown
deriving DecidableEq, Repr

/-- A message posted back to the main thread (`PROGRESS` elided). -/
inductive WorkerResult where
  | result (taskId : String) (scores : List ℚ)
  | error (taskId : String) (message : String)
deriving DecidableEq, Repr

/-- `handleCompute`: dispatch on the algorithm identifier; the four known
identifiers produce a `RESULT`, a bridge error is caught and converted to an
`ERROR`, and the `default` branch's `throw new Error` is caught and
converted to an `ERROR` carrying the task id. -/
def handleCompute (env : WorkerEnv) (taskId algorithm : String) (g : Graph)
    (alpha : ℚ) (count : Nat) : List WorkerResult :=
  if algorithm = "power-iteration-wasm" then
    match (executePowerIterationWASM env.bridge env.kres).2 with
    | .ok r => [.result taskId r]
    | .error e => [.error taskId e]
  else if algorithm = "power-iteration-js" then
    [.result taskId (powerIterationJS g alpha count)]
  else if algorithm = "random-walk-wasm" then
    match (executeRandomWalkWASM env.bridge env.kres).2 with
    | .ok r => [.result taskId r]
    | .error e => [.error taskId e]
  else if algorithm = "random-walk-js" then
    match randomWalkJS g alpha count env.draws with
    | some r => [.result taskId r]
    | none => []
  else
    [.error taskId ("Unknown algorithm: " ++ algorithm)]

/-- `self.onmessage`: `COMPUTE` runs `handleCompute`; `CANCEL` only logs —
the source notes that cancellation is not supported — and `default` only
warns. -/
def processMessage (env : WorkerEnv) : WorkerMsg → List WorkerResult
  | .compute taskId algorithm g alpha count =>
    handleCompute env taskId algorithm g alpha count
  | .cancel _ => []
  | .unknown => []

/-- The outputs of a queue of messages, each with its runtime environment,
processed in arrival order. -/
def processTrace (msgs : List (WorkerEnv × WorkerMsg)) : List WorkerResult :=
  msgs.flatMap (fun em => processMessage em.1 em.2)

/-- Does a worker output carry the given task id as a `RESULT`?  (`PROGRESS`
is elided from the model; `RESULT` suffices to witness continued delivery.) -/
def carriesResult (taskId : String) : WorkerResult → Prop
  | .result t _ => t = taskId
  | .error _ _ => False

instance (taskId : String) (r : WorkerResult) : Decidable (carriesResult taskId r) := by
  cases r <;> simp [carriesResult] <;> infer_instance

/-! ## Heap-threaded kernels (frame property)

Both kernels receive the graph by reference.  These variants thread the
caller's graph object through every loop of the computation; each loop body
reads the graph and writes only the kernel's locals (`outDegree`, `pr`,
`newPr`, `adjacencyList`, `visitCount`), exactly as in the source, so the
graph component records what the caller's object holds after the call. -/

/-- Power iteration threading the caller's graph through every sweep. -/
def powerIterationJSRun (g : Graph) (alpha : ℚ) (iterations : Nat) :
    Graph × List ℚ :=
  let fin := (fun s : Graph × List ℚ => (s.1, powerStep s.1 alpha s.2))^[iterations]
    (g, List.replicate g.nodes ((1 : ℚ) / g.nodes))
  let s := fin.2.sum
  (fin.1, if |s - 1| > tol then fin.2.map (fun x => x / s) else fin.2)

/-- Random walk threading the caller's graph through the walk phase and the
normalization. -/
def randomWalkJSRun (g : Graph) (alpha : ℚ) (walksPerNode : Nat)
    (draws : List ℚ) : Option (Graph × List ℚ) :=
  match (List.range g.nodes).foldlM
      (fun (st : Graph × List Nat × List ℚ) startNode =>
        match doWalks u32 (adjacencyList st.1) st.1.nodes alpha startNode
            walksPerNode st.2.1 st.2.2 with
        | none => none
        | some (counts2, draws2) => some (st.1, counts2, draws2))
      (g, List.replicate g.nodes 0, draws) with
  | none => none
  | some (g1, visitCount, _) =>
    let totalVisits : Nat := visitCount.sum
    if totalVisits = 0 then some (g1, List.replicate g1.nodes ((1 : ℚ) / g1.nodes))
    else
      let pr := visitCount.map (fun c : Nat => (c : ℚ) / (totalVisits : ℚ))
      let s := pr.sum
      if |s - 1| > tol then some (g1, pr.map (fun x => x / s)) else some (g1, pr)

/-! ## Concrete inputs used by the counterexamples -/

/-- A one-node graph with a self-loop. -/
def selfLoop : Graph := ⟨1, [⟨0, 0⟩], true⟩

/-- A draw sequence within `[0,1)` driving one walk of the self-loop graph
through `u32 - 100` edge steps (each step consumes a loop draw and a
neighbour draw, both `0`), then a stopping draw, then stopping draws for 99
further walks. -/
def wrapDraws : List ℚ :=
  List.replicate (2 * (u32 - 100)) 0 ++ [1 / 2] ++ List.replicate 99 (1 / 2)

/-! ## List helpers -/

lemma getD_set_self {α : Type} (l : List α) (i : Nat) (a d : α) (h : i < l.length) :
    (l.set i a).getD i d = a := by
  rw [List.getD_eq_getElem?_getD, List.getElem?_set_self', List.getElem?_eq_getElem h]
  rfl

lemma getD_set_ne {α : Type} (l : List α) {i j : Nat} (h : i ≠ j) (a d : α) :
    (l.set i a).getD j d = l.getD j d := by
  rw [List.getD_eq_getElem?_getD, List.getElem?_set_ne h, ← List.getD_eq_getElem?_getD]

lemma sum_set_getD_add {α : Type} [AddCommMonoid α] (l : List α) (i : Nat) (x : α)
    (h : i < l.length) :
    (l.set i (l.getD i 0 + x)).sum = l.sum + x := by
  induction l generalizing i with
  | nil => simp at h
  | cons a t ih =>
    cases i with
    | zero =>
      simp only [List.set, List.getD_cons_zero, List.sum_cons]
      rw [add_right_comm]
    | succ n =>
      simp only [List.set, List.getD_cons_succ, List.sum_cons]
      rw [ih n (by simpa using h), add_assoc]

lemma sum_map_range (f : Nat → ℚ) (n : Nat) :
    ((List.range n).map f).sum = ∑ i ∈ Finset.range n, f i := by
  induction n with
  | zero => simp
  | succ n ih =>
    rw [List.range_succ, List.map_append, List.sum_append, Finset.sum_range_succ, ih]
    simp

lemma sum_map_filter_range (n : Nat) (p : Nat → Bool) (h : Nat → ℚ) :
    (((List.range n).filter p).map h).sum = ∑ i ∈ Finset.range n, if p i then h i else 0 := by
  induction n with
  | zero => simp
  | succ n ih =>
    rw [List.range_succ, List.filter_append, List.map_append, List.sum_append,
      Finset.sum_range_succ, ih]
    by_cases hp : p n <;> simp [hp]

lemma sum_getD_range (l : List ℚ) :
    ((List.range l.length).map (fun i => l.getD i 0)).sum = l.sum := by
  induction l with
  | nil => simp
  | cons a t ih =>
    rw [List.length_cons, List.range_succ_eq_map, List.map_cons, List.sum_cons,
      List.map_map]
    have : ((fun i => (a :: t).getD i 0) ∘ Nat.succ) = fun i => t.getD i 0 := by
      funext i; rfl
    rw [this, ih, List.sum_cons]
    rfl

/-! ## Lemmas about the accumulate-into-an-entry fold

`outDegreeList` and the edge loop of `powerStep` share the shape
`foldl (fun acc e => acc.set (key e) (acc.getD (key e) 0 + f e)) base`. -/

lemma addFold_length (edges : List Edge) (key : Edge → Nat) (f : Edge → ℚ)
    (base : List ℚ) :
    (edges.foldl (fun acc e => acc.set (key e) (acc.getD (key e) 0 + f e)) base).length
      = base.length := by
  induction edges generalizing base with
  | nil => rfl
  | cons e t ih =>
    rw [List.foldl_cons, ih, List.length_set]

lemma addFold_getD (edges : List Edge) (key : Edge → Nat) (f : Edge → ℚ)
    (base : List ℚ) (hkey : ∀ e ∈ edges, key e < base.length)
    (i : Nat) (hi : i < base.length) :
    (edges.foldl (fun acc e => acc.set (key e) (acc.getD (key e) 0 + f e)) base).getD i 0
      = base.getD i 0 + ((edges.filter (fun e => decide (key e = i))).map f).sum := by
  induction edges generalizing base with
  | nil => simp
  | cons e t ih =>
    rw [List.foldl_cons]
    have hlen : (base.set (key e) (base.getD (key e) 0 + f e)).length = base.length :=
      List.length_set ..
    have hkey' : ∀ x ∈ t, key x < (base.set (key e) (base.getD (key e) 0 + f e)).length := by
      rw [hlen]; exact fun x hx => hkey x (List.mem_cons_of_mem _ hx)
    rw [ih _ hkey' (hlen ▸ hi)]
    by_cases hke : key e = i
    · subst hke
      rw [getD_set_self _ _ _ _ (hkey e (List.mem_cons_self _ _))]
      rw [List.filter_cons, if_pos (by simp), List.map_cons, List.sum_cons]
      ring
    · rw [getD_set_ne _ hke]
      rw [List.filter_cons, if_neg (by simpa using hke)]

lemma addFold_sum (edges : List Edge) (key : Edge → Nat) (f : Edge → ℚ)
    (base : List ℚ) (hkey : ∀ e ∈ edges, key e < base.length) :
    (edges.foldl (fun acc e => acc.set (key e) (acc.getD (key e) 0 + f e)) base).sum
      = base.sum + (edges.map f).sum := by
  induction edges generalizing base with
  | nil => simp
  | cons e t ih =>
    rw [List.foldl_cons, List.map_cons, List.sum_cons]
    have hlen : (base.set (key e) (base.getD (key e) 0 + f e)).length = base.length :=
      List.length_set ..
    have hkey' : ∀ x ∈ t, key x < (base.set (key e) (base.getD (key e) 0 + f e)).length := by
      rw [hlen]; exact fun x hx => hkey x (List.mem_cons_of_mem _ hx)
    rw [ih _ hkey', sum_set_getD_add _ _ _ (hkey e (List.mem_cons_self _ _))]
    ring

lemma sum_fiberwise (edges : List Edge) (key : Edge → Nat) (f : Edge → ℚ) (n : Nat)
    (hkey : ∀ e ∈ edges, key e < n) :
    ((List.range n).map
      (fun s => ((edges.filter (fun e => decide (key e = s))).map f).sum)).sum
      = (edges.map f).sum := by
  induction edges with
  | nil => simp
  | cons e t ih =>
    have ht : ∀ x ∈ t, key x < n := fun x hx => hkey x (List.mem_cons_of_mem _ hx)
    have hsplit : ∀ s : Nat,
        (((e :: t).filter (fun x => decide (key x = s))).map f).sum
          = (if s = key e then f e else 0)
            + ((t.filter (fun x => decide (key x = s))).map f).sum := by
      intro s
      by_cases h : key e = s
      · rw [List.filter_cons, if_pos (by simpa using h), List.map_cons, List.sum_cons,
          if_pos h.symm]
      · rw [List.filter_cons, if_neg (by simpa using h),
          if_neg (fun hc => h hc.symm), zero_add]
    calc ((List.range n).map
        (fun s => (((e :: t).filter (fun x => decide (key x = s))).map f).sum)).sum
        = ∑ s ∈ Finset.range n,
            ((if s = key e then f e else 0)
              + ((t.filter (fun x => decide (key x = s))).map f).sum) := by
          rw [sum_map_range]; exact Finset.sum_congr rfl (fun s _ => hsplit s)
      _ = f e + (t.map f).sum := by
          rw [Finset.sum_add_distrib, Finset.sum_ite_eq' (Finset.range n) (key e)
            (fun _ => f e), if_pos (Finset.mem_range.mpr (hkey e (List.mem_cons_self _ _)))]
          rw [← sum_map_range, ih ht]
      _ = ((e :: t).map f).sum := by rw [List.map_cons, List.sum_cons]

/-! ## Power-iteration structure lemmas -/

lemma getD_replicate_lt {α : Type} (a d : α) {n i : Nat} (h : i < n) :
    (List.replicate n a).getD i d = a := by
  rw [List.getD_eq_getElem _ _ (by simpa using h), List.getElem_replicate]

lemma outDegreeList_length (g : Graph) : (outDegreeList g).length = g.nodes := by
  unfold outDegreeList
  rw [addFold_length]
  exact List.length_replicate ..

lemma outDegreeList_getD (g : Graph) (hv : ValidGraph g) {i : Nat} (hi : i < g.nodes) :
    (outDegreeList g).getD i 0 = (specOutDegree g i : ℚ) := by
  unfold outDegreeList specOutDegree
  rw [addFold_getD g.edges (fun e => e.source) (fun _ => 1) _
    (by rw [List.length_replicate]; exact fun e he => (hv e he).1)
    i (by rw [List.length_replicate]; exact hi)]
  rw [getD_replicate_lt _ _ hi, List.map_const', List.sum_replicate, zero_add,
    nsmul_eq_mul, mul_one]

lemma danglingNodes_eq (g : Graph) (hv : ValidGraph g) :
    danglingNodes g
      = (List.range g.nodes).filter (fun i => decide (specOutDegree g i = 0)) := by
  unfold danglingNodes
  refine List.filter_congr (fun i hi => ?_)
  have hi' : i < g.nodes := List.mem_range.mp hi
  rw [outDegreeList_getD g hv hi']
  exact decide_eq_decide.mpr Nat.cast_eq_zero

lemma powerStep_length (g : Graph) (alpha : ℚ) (pr : List ℚ) :
    (powerStep g alpha pr).length = g.nodes := by
  unfold powerStep
  rw [addFold_length, List.length_map, List.length_replicate]

lemma powerStep_eq_specUpdate (g : Graph) (hv : ValidGraph g) (alpha : ℚ)
    (pr : List ℚ) :
    powerStep g alpha pr = specUpdate g alpha pr := by
  have hDang : ((danglingNodes g).map (fun i => pr.getD i 0)).sum
      = specDanglingSum g pr := by
    rw [danglingNodes_eq g hv]; rfl
  have hlenL : (powerStep g alpha pr).length = g.nodes := powerStep_length ..
  have hlenR : (specUpdate g alpha pr).length = g.nodes := by
    unfold specUpdate
    rw [List.length_map, List.length_range]
  refine List.ext_getElem (by rw [hlenL, hlenR]) (fun i h1 h2 => ?_)
  have hi : i < g.nodes := by rw [← hlenL]; exact h1
  rw [← List.getD_eq_getElem _ 0 h1, ← List.getD_eq_getElem _ 0 h2]
  unfold powerStep
  rw [addFold_getD g.edges (fun e => e.target)
    (fun e => alpha * pr.getD e.source 0 / (outDegreeList g).getD e.source 0) _
    (by rw [List.length_map, List.length_replicate]; exact fun e he => (hv e he).2)
    i (by rw [List.length_map, List.length_replicate]; exact hi)]
  rw [List.map_replicate, getD_replicate_lt _ _ hi]
  have hfib : ((g.edges.filter (fun e => decide (e.target = i))).map
        (fun e => alpha * pr.getD e.source 0 / (outDegreeList g).getD e.source 0))
      = ((g.edges.filter (fun e => decide (e.target = i))).map
        (fun e => alpha * pr.getD e.source 0 / (specOutDegree g e.source : ℚ))) := by
    refine List.map_congr_left (fun e he => ?_)
    have he' : e ∈ g.edges := List.mem_of_mem_filter he
    rw [outDegreeList_getD g hv (hv e he').1]
  rw [hfib, hDang]
  unfold specUpdate
  rw [List.getD_eq_getElem _ 0 (by rw [List.length_map, List.length_range]; exact hi),
    List.getElem_map, List.getElem_range]

lemma powerIterationJS_eq_spec (g : Graph) (hv : ValidGraph g) (alpha : ℚ)
    (iterations : Nat) :
    powerIterationJS g alpha iterations = specPowerIteration g alpha iterations := by
  unfold powerIterationJS specPowerIteration
  rw [funext (powerStep_eq_specUpdate g hv alpha)]

lemma filter_source_length (g : Graph) (s : Nat) :
    (g.edges.filter (fun e => decide (e.source = s))).length = specOutDegree g s := rfl

lemma powerStep_fiber_sum (g : Graph) (hv : ValidGraph g) (alpha : ℚ) (pr : List ℚ)
    (s : Nat) :
    ((g.edges.filter (fun e => decide (e.source = s))).map
      (fun e => alpha * pr.getD e.source 0 / (outDegreeList g).getD e.source 0)).sum
      = if specOutDegree g s = 0 then 0 else alpha * pr.getD s 0 := by
  rcases h : g.edges.filter (fun e => decide (e.source = s)) with _ | ⟨e0, rest⟩
  · have hd : specOutDegree g s = 0 := by rw [← filter_source_length g s, h]; rfl
    rw [h, if_pos hd]
    rfl
  · have hd : specOutDegree g s ≠ 0 := by rw [← filter_source_length g s, h]; simp
    have he0 : e0 ∈ g.edges.filter (fun e => decide (e.source = s)) := by
      rw [h]; exact List.mem_cons_self _ _
    have hs : s < g.nodes := by
      have h1 : e0.source = s := of_decide_eq_true (List.mem_filter.mp he0).2
      have h2 := (hv e0 (List.mem_of_mem_filter he0)).1
      rwa [h1] at h2
    have hmap : (g.edges.filter (fun e => decide (e.source = s))).map
          (fun e => alpha * pr.getD e.source 0 / (outDegreeList g).getD e.source 0)
        = (g.edges.filter (fun e => decide (e.source = s))).map
          (fun _ => alpha * pr.getD s 0 / (specOutDegree g s : ℚ)) := by
      refine List.map_congr_left (fun e he => ?_)
      have hesrc : e.source = s := of_decide_eq_true (List.mem_filter.mp he).2
      rw [hesrc, outDegreeList_getD g hv hs]
    rw [hmap, List.map_const', List.sum_replicate, filter_source_length, if_neg hd,
      nsmul_eq_mul]
    have hd0 : (specOutDegree g s : ℚ) ≠ 0 := Nat.cast_ne_zero.mpr hd
    field_simp

lemma powerStep_sum (g : Graph) (hv : ValidGraph g) (alpha : ℚ) (pr : List ℚ)
    (hn : 1 ≤ g.nodes) (hlen : pr.length = g.nodes) :
    (powerStep g alpha pr).sum = (1 - alpha) + alpha * pr.sum := by
  have hn0 : (g.nodes : ℚ) ≠ 0 := Nat.cast_ne_zero.mpr (by omega)
  have hDang : ((danglingNodes g).map (fun i => pr.getD i 0)).sum
      = ∑ s ∈ Finset.range g.nodes,
          if specOutDegree g s = 0 then pr.getD s 0 else 0 := by
    rw [danglingNodes_eq g hv, sum_map_filter_range]
    exact Finset.sum_congr rfl (fun s _ => by by_cases h : specOutDegree g s = 0 <;> simp [h])
  have hEdge : (g.edges.map
        (fun e => alpha * pr.getD e.source 0 / (outDegreeList g).getD e.source 0)).sum
      = ∑ s ∈ Finset.range g.nodes,
          (if specOutDegree g s = 0 then 0 else alpha * pr.getD s 0) := by
    rw [← sum_fiberwise g.edges (fun e => e.source) _ g.nodes (fun e he => (hv e he).1),
      sum_map_range]
    exact Finset.sum_congr rfl (fun s _ => powerStep_fiber_sum g hv alpha pr s)
  have hPr : ∑ s ∈ Finset.range g.nodes, pr.getD s 0 = pr.sum := by
    rw [← sum_map_range, ← hlen, sum_getD_range]
  unfold powerStep
  rw [addFold_sum g.edges (fun e => e.target) _ _
    (by rw [List.length_map, List.length_replicate]; exact fun e he => (hv e he).2)]
  rw [List.map_replicate, List.sum_replicate, hEdge, nsmul_eq_mul]
  have hsplit : ∀ s ∈ Finset.range g.nodes,
      (if specOutDegree g s = 0 then 0 else alpha * pr.getD s 0)
        = alpha * pr.getD s 0
          - alpha * (if specOutDegree g s = 0 then pr.getD s 0 else 0) := by
    intro s _
    by_cases h : specOutDegree g s = 0 <;> simp [h]
  rw [Finset.sum_congr rfl hsplit, Finset.sum_sub_distrib, ← Finset.mul_sum,
    ← Finset.mul_sum, hPr, ← hDang, hDang]
  field_simp

lemma outDegreeList_getD_nonneg (g : Graph) (hv : ValidGraph g) (i : Nat) :
    0 ≤ (outDegreeList g).getD i 0 := by
  by_cases hi : i < g.nodes
  · rw [outDegreeList_getD g hv hi]
    exact Nat.cast_nonneg _
  · rw [List.getD_eq_default _ _ (by rw [outDegreeList_length]; omega)]

lemma powerStep_getD_nonneg (g : Graph) (hv : ValidGraph g) (alpha : ℚ)
    (h0 : 0 ≤ alpha) (h1 : alpha ≤ 1) (pr : List ℚ)
    (hpr : ∀ i, 0 ≤ pr.getD i 0) (i : Nat) :
    0 ≤ (powerStep g alpha pr).getD i 0 := by
  by_cases hi : i < g.nodes
  · unfold powerStep
    rw [addFold_getD g.edges (fun e => e.target) _ _
      (by rw [List.length_map, List.length_replicate]; exact fun e he => (hv e he).2)
      i (by rw [List.length_map, List.length_replicate]; exact hi)]
    rw [List.map_replicate, getD_replicate_lt _ _ hi]
    have htel : 0 ≤ (1 - alpha) / (g.nodes : ℚ) :=
      div_nonneg (sub_nonneg.mpr h1) (Nat.cast_nonneg _)
    have hdc : 0 ≤ alpha * ((danglingNodes g).map (fun i => pr.getD i 0)).sum / g.nodes := by
      refine div_nonneg (mul_nonneg h0 (List.sum_nonneg ?_)) (Nat.cast_nonneg _)
      intro x hx
      obtain ⟨j, _, rfl⟩ := List.mem_map.mp hx
      exact hpr j
    refine add_nonneg (add_nonneg htel hdc) (List.sum_nonneg ?_)
    intro x hx
    obtain ⟨e, _, rfl⟩ := List.mem_map.mp hx
    exact div_nonneg (mul_nonneg h0 (hpr _)) (outDegreeList_getD_nonneg g hv _)
  · rw [List.getD_eq_default _ _ (by rw [powerStep_length]; omega)]

lemma powerIterate_inv (g : Graph) (hv : ValidGraph g) (alpha : ℚ)
    (h0 : 0 ≤ alpha) (h1 : alpha ≤ 1) (hn : 1 ≤ g.nodes) (k : Nat) :
    ((powerStep g alpha)^[k] (List.replicate g.nodes ((1 : ℚ) / g.nodes))).length = g.nodes
      ∧ ((powerStep g alpha)^[k] (List.replicate g.nodes ((1 : ℚ) / g.nodes))).sum = 1
      ∧ ∀ i, 0 ≤ ((powerStep g alpha)^[k]
          (List.replicate g.nodes ((1 : ℚ) / g.nodes))).getD i 0 := by
  have hn0 : (g.nodes : ℚ) ≠ 0 := Nat.cast_ne_zero.mpr (by omega)
  induction k with
  | zero =>
    refine ⟨List.length_replicate .., ?_, ?_⟩
    · rw [Function.iterate_zero_apply, List.sum_replicate, nsmul_eq_mul, mul_one_div,
        div_self hn0]
    · intro i
      rw [Function.iterate_zero_apply]
      by_cases hi : i < g.nodes
      · rw [getD_replicate_lt _ _ hi]
        positivity
      · rw [List.getD_eq_default _ _ (by rw [List.length_replicate]; omega)]
  | succ k ih =>
    obtain ⟨ihl, ihs, ihp⟩ := ih
    rw [Function.iterate_succ_apply']
    refine ⟨powerStep_length .., ?_, powerStep_getD_nonneg g hv alpha h0 h1 _ ihp⟩
    rw [powerStep_sum g hv alpha _ hn ihl, ihs]
    ring

lemma powerIterationJS_props (g : Graph) (hv : ValidGraph g) (alpha : ℚ)
    (h0 : 0 ≤ alpha) (h1 : alpha ≤ 1) (hn : 1 ≤ g.nodes) (iterations : Nat) :
    (powerIterationJS g alpha iterations).length = g.nodes
      ∧ (powerIterationJS g alpha iterations).sum = 1
      ∧ ∀ i, 0 ≤ (powerIterationJS g alpha iterations).getD i 0 := by
  obtain ⟨hl, hs, hp⟩ := powerIterate_inv g hv alpha h0 h1 hn iterations
  simp only [powerIterationJS]
  rw [hs, if_neg (by norm_num [tol])]
  exact ⟨hl, hs, hp⟩

/-! ## Random-walk lemmas

`walkLoop M` simulates `walkLoop 0` (the untruncated count) through the
entrywise wrap `· % M`; the control flow never reads the counter, so the
draws consumed and the walk path coincide. -/

lemma getD_map_mod (M : Nat) (t : List Nat) (i : Nat) :
    (t.map (· % M)).getD i 0 = t.getD i 0 % M := by
  have h := List.getD_map t 0 (· % M) (n := i)
  rwa [Nat.zero_mod] at h

lemma visitInc_map_mod (M : Nat) (t : List Nat) (i : Nat) :
    visitInc M (t.map (· % M)) i = (visitInc 0 t i).map (· % M) := by
  unfold visitInc
  rw [List.map_set, getD_map_mod, Nat.mod_add_mod, Nat.mod_zero]

lemma walkLoop_sim (M : Nat) (adj : List (List Nat)) (n : Nat) (alpha : ℚ) :
    ∀ (draws : List ℚ) (current : Nat) (t : List Nat),
      walkLoop M adj n alpha current (t.map (· % M)) draws
        = Option.map (fun r => (r.1.map (· % M), r.2))
            (walkLoop 0 adj n alpha current t draws)
  | [], _, _ => by simp [walkLoop]
  | [d], current, t => by
    simp only [walkLoop]
    by_cases hd : d < alpha
    · rw [if_pos hd, if_pos hd]
      by_cases hne : (adj.getD current []).isEmpty = true <;> simp [hne]
    · rw [if_neg hd, if_neg hd]
      rfl
  | d :: d2 :: rest2, current, t => by
    simp only [walkLoop]
    by_cases hd : d < alpha
    · rw [if_pos hd, if_pos hd]
      by_cases hne : (adj.getD current []).isEmpty = true
      · rw [if_pos hne, if_pos hne]
        rw [visitInc_map_mod]
        rfl
      · rw [if_neg hne, if_neg hne]
        rw [visitInc_map_mod]
        exact walkLoop_sim M adj n alpha rest2 _ _
    · rw [if_neg hd, if_neg hd]
      rfl

lemma doWalks_sim (M : Nat) (adj : List (List Nat)) (n : Nat) (alpha : ℚ)
    (startNode : Nat) :
    ∀ (walks : Nat) (t : List Nat) (draws : List ℚ),
      doWalks M adj n alpha startNode walks (t.map (· % M)) draws
        = Option.map (fun r => (r.1.map (· % M), r.2))
            (doWalks 0 adj n alpha startNode walks t draws)
  | 0, t, draws => by simp [doWalks]
  | walks + 1, t, draws => by
    simp only [doWalks]
    rw [visitInc_map_mod, walkLoop_sim]
    cases h : walkLoop 0 adj n alpha startNode (visitInc 0 t startNode) draws with
    | none => rfl
    | some r =>
      simp only [Option.map_some']
      exact doWalks_sim M adj n alpha startNode walks r.1 r.2

lemma walkAll_sim (M : Nat) (adj : List (List Nat)) (n : Nat) (alpha : ℚ) (w : Nat) :
    ∀ (l : List Nat) (t : List Nat) (draws : List ℚ),
      l.foldlM (fun (acc : List Nat × List ℚ) s => doWalks M adj n alpha s w acc.1 acc.2)
          (t.map (· % M), draws)
        = Option.map (fun r => (r.1.map (· % M), r.2))
            (l.foldlM (fun (acc : List Nat × List ℚ) s => doWalks 0 adj n alpha s w acc.1 acc.2)
              (t, draws))
  | [], t, draws => by simp
  | s :: l, t, draws => by
    rw [List.foldlM_cons, List.foldlM_cons, doWalks_sim]
    cases h : doWalks 0 adj n alpha s w t draws with
    | none => rfl
    | some r => simpa using walkAll_sim M adj n alpha w l r.1 r.2

lemma randomWalkCounts_sim (g : Graph) (alpha : ℚ) (w : Nat) (draws : List ℚ) :
    randomWalkCounts u32 g alpha w draws
      = Option.map (fun r => (r.1.map (· % u32), r.2))
          (randomWalkCounts 0 g alpha w draws) := by
  unfold randomWalkCounts
  have hrep : (List.replicate g.nodes 0 : List Nat)
      = (List.replicate g.nodes 0).map (· % u32) := by
    rw [List.map_replicate, Nat.zero_mod]
  conv_lhs => rw [hrep]
  exact walkAll_sim u32 (adjacencyList g) g.nodes alpha w (List.range g.nodes)
    (List.replicate g.nodes 0) draws

lemma visitInc_length (M : Nat) (counts : List Nat) (i : Nat) :
    (visitInc M counts i).length = counts.length := List.length_set ..

lemma walkLoop_length (M : Nat) (adj : List (List Nat)) (n : Nat) (alpha : ℚ) :
    ∀ (draws : List ℚ) (current : Nat) (counts : List Nat) (res : List Nat × List ℚ),
      walkLoop M adj n alpha current counts draws = some res →
      res.1.length = counts.length
  | [], _, _, _ => by simp [walkLoop]
  | [d], current, counts, res => by
    intro h
    simp only [walkLoop] at h
    by_cases hd : d < alpha
    · rw [if_pos hd] at h
      by_cases hne : (adj.getD current []).isEmpty = true <;> simp [hne] at h
    · rw [if_neg hd] at h
      cases h
      rfl
  | d :: d2 :: rest2, current, counts, res => by
    intro h
    simp only [walkLoop] at h
    by_cases hd : d < alpha
    · rw [if_pos hd] at h
      by_cases hne : (adj.getD current []).isEmpty = true
      · rw [if_pos hne] at h
        cases h
        exact visitInc_length ..
      · rw [if_neg hne] at h
        rw [walkLoop_length M adj n alpha rest2 _ _ _ h]
        exact visitInc_length ..
    · rw [if_neg hd] at h
      cases h
      rfl

lemma doWalks_length (M : Nat) (adj : List (List Nat)) (n : Nat) (alpha : ℚ)
    (startNode : Nat) :
    ∀ (walks : Nat) (counts : List Nat) (draws : List ℚ) (res : List Nat × List ℚ),
      doWalks M adj n alpha startNode walks counts draws = some res →
      res.1.length = counts.length
  | 0, counts, draws, res => by
    intro h
    cases h
    rfl
  | walks + 1, counts, draws, res => by
    intro h
    simp only [doWalks] at h
    cases hw : walkLoop M adj n alpha startNode (visitInc M counts startNode) draws with
    | none => rw [hw] at h; cases h
    | some r =>
      rw [hw] at h
      rw [doWalks_length M adj n alpha startNode walks r.1 r.2 res h,
        walkLoop_length M adj n alpha draws startNode _ r hw]
      exact visitInc_length ..

lemma walkAll_length (M : Nat) (adj : List (List Nat)) (n : Nat) (alpha : ℚ) (w : Nat) :
    ∀ (l : List Nat) (counts : List Nat) (draws : List ℚ) (res : List Nat × List ℚ),
      l.foldlM (fun (acc : List Nat × List ℚ) s => doWalks M adj n alpha s w acc.1 acc.2)
          (counts, draws) = some res →
      res.1.length = counts.length
  | [], counts, draws, res => by
    intro h
    cases h
    rfl
  | s :: l, counts, draws, res => by
    intro h
    rw [List.foldlM_cons] at h
    cases hw : doWalks M adj n alpha s w counts draws with
    | none => rw [hw] at h; cases h
    | some r =>
      rw [hw] at h
      simp only [Option.bind_eq_bind] at h
      rw [walkAll_length M adj n alpha w l r.1 r.2 res (by simpa using h),
        doWalks_length M adj n alpha s w counts draws r hw]

lemma randomWalkCounts_length (M : Nat) (g : Graph) (alpha : ℚ) (w : Nat)
    (draws : List ℚ) (res : List Nat × List ℚ)
    (h : randomWalkCounts M g alpha w draws = some res) :
    res.1.length = g.nodes := by
  unfold randomWalkCounts at h
  rw [walkAll_length M (adjacencyList g) g.nodes alpha w (List.range g.nodes)
    (List.replicate g.nodes 0) draws res h]
  exact List.length_replicate ..

/-! Sum bounds on the untruncated (`M = 0`) counter: a walk only ever
increments entries, and each walk increments its start entry first. -/

lemma visitInc_zero_sum_ge (t : List Nat) (i : Nat) :
    t.sum ≤ (visitInc 0 t i).sum := by
  unfold visitInc
  rw [Nat.mod_zero]
  by_cases hi : i < t.length
  · rw [sum_set_getD_add t i 1 hi]
    omega
  · rw [List.set_eq_of_length_le (by omega)]

lemma visitInc_zero_sum_succ (t : List Nat) (i : Nat) (hi : i < t.length) :
    (visitInc 0 t i).sum = t.sum + 1 := by
  unfold visitInc
  rw [Nat.mod_zero, sum_set_getD_add t i 1 hi]

lemma walkLoop_zero_sum_ge (adj : List (List Nat)) (n : Nat) (alpha : ℚ) :
    ∀ (draws : List ℚ) (current : Nat) (counts : List Nat) (res : List Nat × List ℚ),
      walkLoop 0 adj n alpha current counts draws = some res →
      counts.sum ≤ res.1.sum
  | [], _, _, _ => by simp [walkLoop]
  | [d], current, counts, res => by
    intro h
    simp only [walkLoop] at h
    by_cases hd : d < alpha
    · rw [if_pos hd] at h
      by_cases hne : (adj.getD current []).isEmpty = true <;> simp [hne] at h
    · rw [if_neg hd] at h
      cases h
      exact le_refl _
  | d :: d2 :: rest2, current, counts, res => by
    intro h
    simp only [walkLoop] at h
    by_cases hd : d < alpha
    · rw [if_pos hd] at h
      by_cases hne : (adj.getD current []).isEmpty = true
      · rw [if_pos hne] at h
        cases h
        exact visitInc_zero_sum_ge ..
      · rw [if_neg hne] at h
        exact le_trans (visitInc_zero_sum_ge ..)
          (walkLoop_zero_sum_ge adj n alpha rest2 _ _ _ h)
    · rw [if_neg hd] at h
      cases h
      exact le_refl _

lemma doWalks_zero_sum_ge (adj : List (List Nat)) (n : Nat) (alpha : ℚ)
    (startNode : Nat) :
    ∀ (walks : Nat) (counts : List Nat) (draws : List ℚ) (res : List Nat × List ℚ),
      startNode < counts.length →
      doWalks 0 adj n alpha startNode walks counts draws = some res →
      counts.sum + walks ≤ res.1.sum
  | 0, counts, draws, res => by
    intro _ h
    cases h
    simp
  | walks + 1, counts, draws, res => by
    intro hstart h
    simp only [doWalks] at h
    cases hw : walkLoop 0 adj n alpha startNode (visitInc 0 counts startNode) draws with
    | none => rw [hw] at h; cases h
    | some r =>
      rw [hw] at h
      have h1 : counts.sum + 1 ≤ r.1.sum := by
        rw [← visitInc_zero_sum_succ counts startNode hstart]
        exact walkLoop_zero_sum_ge adj n alpha draws startNode _ r hw
      have h2 : startNode < r.1.length := by
        rw [walkLoop_length 0 adj n alpha draws startNode _ r hw, visitInc_length]
        exact hstart
      have h3 := doWalks_zero_sum_ge adj n alpha startNode walks r.1 r.2 res h2 h
      omega

lemma walkAll_zero_sum_ge (adj : List (List Nat)) (n : Nat) (alpha : ℚ) (w : Nat) :
    ∀ (l : List Nat) (counts : List Nat) (draws : List ℚ) (res : List Nat × List ℚ),
      (∀ s ∈ l, s < counts.length) →
      l.foldlM (fun (acc : List Nat × List ℚ) s => doWalks 0 adj n alpha s w acc.1 acc.2)
          (counts, draws) = some res →
      counts.sum + l.length * w ≤ res.1.sum
  | [], counts, draws, res => by
    intro _ h
    cases h
    simp
  | s :: l, counts, draws, res => by
    intro hmem h
    rw [List.foldlM_cons] at h
    cases hw : doWalks 0 adj n alpha s w counts draws with
    | none => rw [hw] at h; cases h
    | some r =>
      rw [hw] at h
      have h1 := doWalks_zero_sum_ge adj n alpha s w counts draws r
        (hmem s (List.mem_cons_self _ _)) hw
      have hlen : r.1.length = counts.length :=
        doWalks_length 0 adj n alpha s w counts draws r hw
      have h2 := walkAll_zero_sum_ge adj n alpha w l r.1 r.2 res
        (fun x hx => hlen ▸ hmem x (List.mem_cons_of_mem _ hx)) (by simpa using h)
      have : l.length * w + (counts.sum + w) ≤ l.length * w + r.1.sum := by omega
      calc counts.sum + (s :: l).length * w
          = l.length * w + (counts.sum + w) := by
            rw [List.length_cons]
            ring
        _ ≤ l.length * w + r.1.sum := this
        _ ≤ res.1.sum := by omega

lemma randomWalkCounts_zero_sum_ge (g : Graph) (alpha : ℚ) (w : Nat)
    (draws : List ℚ) (res : List Nat × List ℚ)
    (h : randomWalkCounts 0 g alpha w draws = some res) :
    g.nodes * w ≤ res.1.sum := by
  unfold randomWalkCounts at h
  have := walkAll_zero_sum_ge (adjacencyList g) g.nodes alpha w (List.range g.nodes)
    (List.replicate g.nodes 0) draws res
    (fun s hs => by rw [List.length_replicate]; exact List.mem_range.mp hs) h
  simpa using this

/-! Concrete walk on the one-node self-loop graph: with every loop draw `0`
(continue) and every neighbour draw `0` (the unique neighbour), a single walk
visits node `0` once per step, so the counter wraps at `M = u32`. -/

lemma walkLoop_stop (M : Nat) (adj : List (List Nat)) (n : Nat) (alpha : ℚ)
    (current : Nat) (counts : List Nat) (d : ℚ) (rest : List ℚ) (hd : ¬ d < alpha) :
    walkLoop M adj n alpha current counts (d :: rest) = some (counts, rest) := by
  cases rest with
  | nil => simp [walkLoop, hd]
  | cons d2 r2 => simp [walkLoop, hd]

lemma walkLoop_selfLoop (M : Nat) :
    ∀ (k : Nat) (c : Nat) (tail : List ℚ),
      walkLoop M [[0]] 1 (1 / 2) 0 [c % M]
          (List.replicate (2 * k) 0 ++ [1 / 2] ++ tail)
        = some ([(c + k) % M], tail)
  | 0, c, tail => by
    show walkLoop M [[0]] 1 (1 / 2) 0 [c % M] ((1 / 2) :: tail) = _
    rw [walkLoop_stop M [[0]] 1 (1 / 2) 0 [c % M] (1 / 2) tail (lt_irrefl _),
      Nat.add_zero]
  | k + 1, c, tail => by
    have h2 : 2 * (k + 1) = 2 * k + 1 + 1 := by ring
    rw [h2, List.replicate_succ, List.replicate_succ]
    show walkLoop M [[0]] 1 (1 / 2) 0 [c % M]
      ((0 : ℚ) :: (0 : ℚ) :: (List.replicate (2 * k) 0 ++ [1 / 2] ++ tail)) = _
    simp only [walkLoop]
    rw [if_pos (by norm_num)]
    have hadj : (([[0]] : List (List Nat)).getD 0 []) = [0] := rfl
    rw [if_neg (by rw [hadj]; simp)]
    have hnext : (([[0]] : List (List Nat)).getD 0 []).getD
        (((0 : ℚ) * ((([[0]] : List (List Nat)).getD 0 []).length : ℚ)).floor.toNat) 0
        = 0 := by
      rw [hadj]
      norm_num
    rw [hnext]
    have hinc : visitInc M [c % M] 0 = [(c + 1) % M] := by
      unfold visitInc
      rw [List.getD_cons_zero, Nat.mod_add_mod]
      rfl
    rw [hinc]
    rw [walkLoop_selfLoop M k (c + 1) tail]
    have : c + 1 + k = c + (k + 1) := by ring
    rw [this]

lemma doWalks_selfLoop_stop (M : Nat) :
    ∀ (j : Nat) (c : Nat),
      doWalks M [[0]] 1 (1 / 2) 0 j [c % M] (List.replicate j (1 / 2))
        = some ([(c + j) % M], [])
  | 0, c => by simp [doWalks]
  | j + 1, c => by
    rw [List.replicate_succ]
    simp only [doWalks]
    have hinc : visitInc M [c % M] 0 = [(c + 1) % M] := by
      unfold visitInc
      rw [List.getD_cons_zero, Nat.mod_add_mod]
      rfl
    rw [hinc]
    show (match walkLoop M [[0]] 1 (1 / 2) 0 [(c + 1) % M]
        ((1 / 2) :: List.replicate j (1 / 2)) with
      | none => none
      | some (counts2, draws2) => doWalks M [[0]] 1 (1 / 2) 0 j counts2 draws2) = _
    rw [walkLoop_stop M [[0]] 1 (1 / 2) 0 [(c + 1) % M] (1 / 2)
      (List.replicate j (1 / 2)) (lt_irrefl _)]
    show doWalks M [[0]] 1 (1 / 2) 0 j [(c + 1) % M] (List.replicate j (1 / 2)) = _
    rw [doWalks_selfLoop_stop M j (c + 1)]
    have : c + 1 + j = c + (j + 1) := by ring
    rw [this]

lemma randomWalkCounts_selfLoop (M : Nat) (k : Nat) :
    randomWalkCounts M selfLoop (1 / 2) 100
        (List.replicate (2 * k) 0 ++ [1 / 2] ++ List.replicate 99 (1 / 2))
      = some ([(k + 100) % M], []) := by
  unfold randomWalkCounts
  have hadj : adjacencyList selfLoop = [[0]] := rfl
  have hn : selfLoop.nodes = 1 := rfl
  rw [hadj, hn]
  show (doWalks M [[0]] 1 (1 / 2) 0 100 [0]
      (List.replicate (2 * k) 0 ++ [1 / 2] ++ List.replicate 99 (1 / 2))).bind
      (fun acc => List.foldlM _ acc []) = _
  have hfirst : doWalks M [[0]] 1 (1 / 2) 0 100 [0]
      (List.replicate (2 * k) 0 ++ [1 / 2] ++ List.replicate 99 (1 / 2))
      = some ([(k + 100) % M], []) := by
    show (match walkLoop M [[0]] 1 (1 / 2) 0 (visitInc M [0] 0)
        (List.replicate (2 * k) 0 ++ [1 / 2] ++ List.replicate 99 (1 / 2)) with
      | none => none
      | some (counts2, draws2) => doWalks M [[0]] 1 (1 / 2) 0 99 counts2 draws2) = _
    have hinc : visitInc M ([0] : List Nat) 0 = [1 % M] := by
      unfold visitInc
      rfl
    rw [hinc, walkLoop_selfLoop M k 1]
    show doWalks M [[0]] 1 (1 / 2) 0 99 [(1 + k) % M] (List.replicate 99 (1 / 2)) = _
    rw [doWalks_selfLoop_stop M 99 (1 + k)]
    have : 1 + k + 99 = k + 100 := by ring
    rw [this]
  rw [hfirst]
  rfl

/-! Output invariants of `randomWalkJS`. -/

lemma randomWalkJS_props (g : Graph) (alpha : ℚ) (w : Nat) (draws : List ℚ)
    (v : List ℚ) (hn : 1 ≤ g.nodes)
    (h : randomWalkJS g alpha w draws = some v) :
    v.length = g.nodes ∧ v.sum = 1 ∧ ∀ i, 0 ≤ v.getD i 0 := by
  have hn0 : (g.nodes : ℚ) ≠ 0 := Nat.cast_ne_zero.mpr (by omega)
  unfold randomWalkJS at h
  cases hc : randomWalkCounts u32 g alpha w draws with
  | none => rw [hc] at h; cases h
  | some res =>
    obtain ⟨counts, rest⟩ := res
    rw [hc] at h
    simp only [] at h
    by_cases hz : counts.sum = 0
    · rw [if_pos hz] at h
      cases h
      refine ⟨List.length_replicate .., ?_, ?_⟩
      · rw [List.sum_replicate, nsmul_eq_mul, mul_one_div, div_self hn0]
      · intro i
        by_cases hi : i < g.nodes
        · rw [getD_replicate_lt _ _ hi]
          positivity
        · rw [List.getD_eq_default _ _ (by rw [List.length_replicate]; omega)]
    · rw [if_neg hz] at h
      have hlen : counts.length = g.nodes :=
        randomWalkCounts_length u32 g alpha w draws (counts, rest) hc
      have hsum : (counts.map (fun c : Nat => (c : ℚ) / (counts.sum : ℚ))).sum = 1 := by
        have hdiv : counts.map (fun c : Nat => (c : ℚ) / (counts.sum : ℚ))
            = counts.map (fun c : Nat => (c : ℚ) * ((counts.sum : ℚ))⁻¹) := by
          refine List.map_congr_left (fun c _ => ?_)
          rw [div_eq_mul_inv]
        rw [hdiv, List.sum_map_mul_right, ← Nat.cast_list_sum,
          mul_inv_cancel₀ (Nat.cast_ne_zero.mpr hz)]
      rw [hsum, if_neg (by norm_num [tol])] at h
      cases h
      refine ⟨by rw [List.length_map]; exact hlen, hsum, ?_⟩
      intro i
      by_cases hi : i < counts.length
      · rw [List.getD_eq_getElem _ _ (by rw [List.length_map]; exact hi),
          List.getElem_map]
        positivity
      · rw [List.getD_eq_default _ _ (by rw [List.length_map]; omega)]

/-! ## Heap-threading lemmas: both kernels return the caller's graph object
unchanged, and their score output is the one of the plain embedding. -/

lemma powerRun_iterate (alpha : ℚ) :
    ∀ (k : Nat) (s : Graph × List ℚ),
      ((fun s : Graph × List ℚ => (s.1, powerStep s.1 alpha s.2))^[k] s)
        = (s.1, (powerStep s.1 alpha)^[k] s.2)
  | 0, s => rfl
  | k + 1, s => by
    rw [Function.iterate_succ_apply, Function.iterate_succ_apply]
    exact powerRun_iterate alpha k _

lemma powerIterationJSRun_eq (g : Graph) (alpha : ℚ) (iterations : Nat) :
    powerIterationJSRun g alpha iterations = (g, powerIterationJS g alpha iterations) := by
  simp only [powerIterationJSRun, powerIterationJS, powerRun_iterate]

lemma runWalkAll (alpha : ℚ) (w : Nat) :
    ∀ (l : List Nat) (gg : Graph) (c : List Nat) (d : List ℚ),
      l.foldlM (fun (st : Graph × List Nat × List ℚ) s =>
          match doWalks u32 (adjacencyList st.1) st.1.nodes alpha s w st.2.1 st.2.2 with
          | none => none
          | some (counts2, draws2) => some (st.1, counts2, draws2)) (gg, c, d)
        = Option.map (fun r : List Nat × List ℚ => (gg, r.1, r.2))
            (l.foldlM (fun (acc : List Nat × List ℚ) s =>
              doWalks u32 (adjacencyList gg) gg.nodes alpha s w acc.1 acc.2) (c, d))
  | [], gg, c, d => rfl
  | s :: l, gg, c, d => by
    rw [List.foldlM_cons, List.foldlM_cons]
    cases h : doWalks u32 (adjacencyList gg) gg.nodes alpha s w c d with
    | none => simp [h]
    | some r =>
      simp only [h, Option.bind_eq_bind, Option.some_bind]
      exact runWalkAll alpha w l gg r.1 r.2

lemma randomWalkJSRun_eq (g : Graph) (alpha : ℚ) (w : Nat) (draws : List ℚ) :
    randomWalkJSRun g alpha w draws
      = Option.map (fun v => (g, v)) (randomWalkJS g alpha w draws) := by
  unfold randomWalkJSRun randomWalkJS randomWalkCounts
  rw [runWalkAll]
  cases h : (List.range g.nodes).foldlM
      (fun (acc : List Nat × List ℚ) s =>
        doWalks u32 (adjacencyList g) g.nodes alpha s w acc.1 acc.2)
      (List.replicate g.nodes 0, draws) with
  | none => rfl
  | some r =>
    obtain ⟨counts, rest⟩ := r
    simp only [Option.map_some']
    by_cases hz : counts.sum = 0
    · rw [if_pos hz, if_pos hz]
      rfl
    · rw [if_neg hz, if_neg hz]
      by_cases ht : |(counts.map (fun c : Nat => (c : ℚ) / (counts.sum : ℚ))).sum - 1| > tol
      · rw [if_pos ht, if_pos ht]
        rfl
      · rw [if_neg ht, if_neg ht]
        rfl

/-! ## Worker trace lemmas -/

lemma processTrace_append (a b : List (WorkerEnv × WorkerMsg)) :
    processTrace (a ++ b) = processTrace a ++ processTrace b := by
  simp [processTrace]

lemma processTrace_cons (em : WorkerEnv × WorkerMsg) (rest : List (WorkerEnv × WorkerMsg)) :
    processTrace (em :: rest) = processMessage em.1 em.2 ++ processTrace rest := by
  simp [processTrace]

/-! ## Auxiliary: uniform vector is a fixed point on an edgeless graph -/

lemma powerStep_no_edges (n : Nat) (d : Bool) (alpha : ℚ) (hn : 1 ≤ n) :
    powerStep ⟨n, [], d⟩ alpha (List.replicate n ((1 : ℚ) / (n : ℚ)))
      = List.replicate n ((1 : ℚ) / (n : ℚ)) := by
  have hn0 : ((n : ℚ)) ≠ 0 := Nat.cast_ne_zero.mpr (by omega)
  have hdang : danglingNodes ⟨n, [], d⟩ = List.range n := by
    unfold danglingNodes
    refine List.filter_eq_self.mpr (fun i hi => ?_)
    have hi' : i < n := List.mem_range.mp hi
    have h0 : (outDegreeList ⟨n, [], d⟩).getD i 0 = 0 := by
      show ((List.replicate n (0 : ℚ)).getD i 0) = 0
      rw [getD_replicate_lt _ _ hi']
    rw [decide_eq_true_eq]
    exact h0
  have hsum : ((danglingNodes ⟨n, [], d⟩).map
      (fun i => (List.replicate n ((1 : ℚ) / (n : ℚ))).getD i 0)).sum = 1 := by
    rw [hdang]
    have hmap : (List.range n).map
          (fun i => (List.replicate n ((1 : ℚ) / (n : ℚ))).getD i 0)
        = (List.range n).map (fun _ => (1 : ℚ) / (n : ℚ)) :=
      List.map_congr_left (fun i hi => getD_replicate_lt _ _ (List.mem_range.mp hi))
    rw [hmap, List.map_const', List.sum_replicate, List.length_range, nsmul_eq_mul,
      mul_one_div, div_self hn0]
  show (List.replicate n ((1 - alpha) / (n : ℚ))).map
      (fun x => x + alpha * ((danglingNodes ⟨n, [], d⟩).map
        (fun i => (List.replicate n ((1 : ℚ) / (n : ℚ))).getD i 0)).sum / (n : ℚ))
    = List.replicate n ((1 : ℚ) / (n : ℚ))
  rw [List.map_replicate]
  simp only [hsum]
  congr 1
  field_simp

/-! ## Claim theorems -/

/-- C1: for every valid graph with at least one node, every `alpha ∈ (0,1)`
and every positive iteration count, the managed PowerIteration kernel returns
exactly the vector of the spec's recurrence: initialize `pr[i] = 1/n`, apply
the teleportation/dangling/edge update `iterations` times, then rescale by
the vector sum only when it deviates from 1 by more than `1e-6`. -/
theorem claim_C1_powerIteration_matches_spec (g : Graph) (alpha : ℚ)
    (iterations : Nat) (hv : ValidGraph g) (hn : 1 ≤ g.nodes)
    (h0 : 0 < alpha) (h1 : alpha < 1) (hit : 1 ≤ iterations) :
    powerIterationJS g alpha iterations = specPowerIteration g alpha iterations :=
  powerIterationJS_eq_spec g hv alpha iterations

/-- Witness for C1 at the two-node graph with the single edge `0 → 1`. -/
theorem claim_C1_witness :
    powerIterationJS ⟨2, [⟨0, 1⟩], true⟩ (1 / 2) 3
      = specPowerIteration ⟨2, [⟨0, 1⟩], true⟩ (1 / 2) 3 :=
  claim_C1_powerIteration_matches_spec ⟨2, [⟨0, 1⟩], true⟩ (1 / 2) 3
    (by decide) (by norm_num) (by norm_num) (by norm_num) (by norm_num)

/-- C2: for every valid graph with `n ≥ 1` and `alpha ∈ (0,1)`, the score
vector of either kernel (PowerIteration at any positive iteration count,
RandomWalk at any positive `walksPerNode`, on any terminating execution) has
length `n`, sums to `1` within `1e-6`, and has only nonnegative entries. -/
theorem claim_C2_scoreVector_invariants :
    (∀ (g : Graph) (alpha : ℚ) (iterations : Nat),
      ValidGraph g → 1 ≤ g.nodes → 0 < alpha → alpha < 1 → 1 ≤ iterations →
      (powerIterationJS g alpha iterations).length = g.nodes
        ∧ |(powerIterationJS g alpha iterations).sum - 1| ≤ tol
        ∧ ∀ i, 0 ≤ (powerIterationJS g alpha iterations).getD i 0)
    ∧ (∀ (g : Graph) (alpha : ℚ) (walksPerNode : Nat) (draws : List ℚ) (v : List ℚ),
      1 ≤ g.nodes → 0 < alpha → alpha < 1 → 1 ≤ walksPerNode →
      randomWalkJS g alpha walksPerNode draws = some v →
      v.length = g.nodes ∧ |v.sum - 1| ≤ tol ∧ ∀ i, 0 ≤ v.getD i 0) := by
  constructor
  · intro g alpha iterations hv hn h0 h1 _
    obtain ⟨hl, hs, hp⟩ :=
      powerIterationJS_props g hv alpha (le_of_lt h0) (le_of_lt h1) hn iterations
    exact ⟨hl, by rw [hs]; norm_num [tol], hp⟩
  · intro g alpha w draws v hn _ _ _ h
    obtain ⟨hl, hs, hp⟩ := randomWalkJS_props g alpha w draws v hn h
    exact ⟨hl, by rw [hs]; norm_num [tol], hp⟩

/-- Witness for C2: PowerIteration on the edge `0 → 1`, RandomWalk on the
one-node graph with the single stopping draw `1/2`. -/
theorem claim_C2_witness :
    ((powerIterationJS ⟨2, [⟨0, 1⟩], true⟩ (1 / 2) 1).length = 2
      ∧ |(powerIterationJS ⟨2, [⟨0, 1⟩], true⟩ (1 / 2) 1).sum - 1| ≤ tol
      ∧ ∀ i, 0 ≤ (powerIterationJS ⟨2, [⟨0, 1⟩], true⟩ (1 / 2) 1).getD i 0)
    ∧ (([(1 : ℚ)] : List ℚ).length = 1 ∧ |([(1 : ℚ)] : List ℚ).sum - 1| ≤ tol
      ∧ ∀ i, 0 ≤ ([(1 : ℚ)] : List ℚ).getD i 0) := by
  have hc : randomWalkCounts u32 ⟨1, [], true⟩ (mkRat 1 2) 1 [mkRat 1 2]
      = some ([1], []) := by decide
  have hjs : randomWalkJS ⟨1, [], true⟩ (mkRat 1 2) 1 [mkRat 1 2] = some [1] := by
    unfold randomWalkJS
    rw [hc]
    norm_num [tol]
  constructor
  · exact claim_C2_scoreVector_invariants.1 ⟨2, [⟨0, 1⟩], true⟩ (1 / 2) 1
      (by decide) (by norm_num) (by norm_num) (by norm_num) (by norm_num)
  · exact claim_C2_scoreVector_invariants.2 ⟨1, [], true⟩ (mkRat 1 2) 1 [mkRat 1 2] [1]
      (by norm_num) (by norm_num [mkRat]) (by norm_num [mkRat]) (by norm_num) hjs

/-- C3: the managed PowerIteration kernel is deterministic — its output is a
function of the graph's node count and edge list (and the parameters) alone,
so identical `(graph, alpha, iterations)` inputs give identical outputs. -/
theorem claim_C3_powerIteration_deterministic (g1 g2 : Graph) (alpha : ℚ)
    (iterations : Nat) (hn : g1.nodes = g2.nodes) (he : g1.edges = g2.edges) :
    powerIterationJS g1 alpha iterations = powerIterationJS g2 alpha iterations := by
  obtain ⟨n1, e1, d1⟩ := g1
  obtain ⟨n2, e2, d2⟩ := g2
  dsimp only at hn he
  subst hn
  subst he
  rfl

/-- Witness for C3: equal node/edge data, differing `isDirected` flags. -/
theorem claim_C3_witness :
    powerIterationJS ⟨2, [⟨0, 1⟩], true⟩ (1 / 2) 2
      = powerIterationJS ⟨2, [⟨0, 1⟩], false⟩ (1 / 2) 2 :=
  claim_C3_powerIteration_deterministic ⟨2, [⟨0, 1⟩], true⟩ ⟨2, [⟨0, 1⟩], false⟩
    (1 / 2) 2 rfl rfl

/-- C9: on the five-node graph with an empty edge list (all nodes dangling),
the managed PowerIteration kernel returns the uniform vector `0.2` for every
`alpha ∈ (0,1)` and every positive iteration count. -/
theorem claim_C9_empty_graph_uniform (d : Bool) (alpha : ℚ) (iterations : Nat)
    (h0 : 0 < alpha) (h1 : alpha < 1) (hit : 1 ≤ iterations) :
    powerIterationJS ⟨5, [], d⟩ alpha iterations = List.replicate 5 (0.2 : ℚ) := by
  have hstep : ∀ k, (powerStep ⟨5, [], d⟩ alpha)^[k]
        (List.replicate 5 ((1 : ℚ) / ((5 : Nat) : ℚ)))
      = List.replicate 5 ((1 : ℚ) / ((5 : Nat) : ℚ)) := by
    intro k
    induction k with
    | zero => rfl
    | succ k ih =>
      rw [Function.iterate_succ_apply', ih]
      exact powerStep_no_edges 5 d alpha (by norm_num)
  simp only [powerIterationJS]
  rw [hstep iterations]
  have hs : (List.replicate 5 ((1 : ℚ) / ((5 : Nat) : ℚ))).sum = 1 := by
    rw [List.sum_replicate, nsmul_eq_mul]
    norm_num
  rw [hs, if_neg (by norm_num [tol])]
  have h02 : (1 : ℚ) / ((5 : Nat) : ℚ) = (0.2 : ℚ) := by norm_num
  rw [h02]

/-- Witness for C9 at `alpha = 0.85`, three iterations. -/
theorem claim_C9_witness :
    powerIterationJS ⟨5, [], true⟩ (85 / 100) 3 = List.replicate 5 (0.2 : ℚ) :=
  claim_C9_empty_graph_uniform true (85 / 100) 3 (by norm_num) (by norm_num)
    (by norm_num)

/-- C10: both managed kernels leave the caller's graph object unchanged: the
heap-threaded runs return the input graph as their first component, with the
same score output as the plain kernels. -/
theorem claim_C10_kernels_preserve_graph :
    (∀ (g : Graph) (alpha : ℚ) (iterations : Nat),
      powerIterationJSRun g alpha iterations = (g, powerIterationJS g alpha iterations))
    ∧ ∀ (g : Graph) (alpha : ℚ) (walksPerNode : Nat) (draws : List ℚ),
      randomWalkJSRun g alpha walksPerNode draws
        = Option.map (fun v => (g, v)) (randomWalkJS g alpha walksPerNode draws) :=
  ⟨powerIterationJSRun_eq, randomWalkJSRun_eq⟩

/-! ## Shared concrete runs for the wrap counterexamples -/

lemma selfLoop_wrap_run :
    randomWalkCounts u32 selfLoop (1 / 2) 100 wrapDraws = some ([0], []) := by
  have h := randomWalkCounts_selfLoop u32 (u32 - 100)
  have hmod : (u32 - 100 + 100) % u32 = 0 := by norm_num [u32]
  rw [hmod] at h
  exact h

lemma selfLoop_true_run :
    randomWalkCounts 0 selfLoop (1 / 2) 100 wrapDraws = some ([u32], []) := by
  have h := randomWalkCounts_selfLoop 0 (u32 - 100)
  have hmod : (u32 - 100 + 100) % 0 = u32 := by norm_num [u32]
  rw [hmod] at h
  exact h

/-- C4 (counterexample): the claim's consequence fails on the code — the
`Uint32Array` counter can wrap to `0`, so a terminating execution with
`n ≥ 1`, `walksPerNode ≥ 1` can still reach `totalVisits == 0`: on the
one-node self-loop graph, one walk of `2^32 - 100` steps plus the 99
remaining walks leaves the single counter at `0`. -/
theorem claim_C4_counterexample :
    ¬ (∀ (g : Graph) (alpha : ℚ) (walksPerNode : Nat) (draws : List ℚ)
        (counts : List Nat) (rest : List ℚ),
        1 ≤ g.nodes → 1 ≤ walksPerNode →
        randomWalkCounts u32 g alpha walksPerNode draws = some (counts, rest) →
        counts.sum ≠ 0) := by
  intro h
  exact h selfLoop (1 / 2) 100 wrapDraws [0] [] (by norm_num [selfLoop])
    (by norm_num) selfLoop_wrap_run rfl

/-- C4 (amended): every walk records at least one visit, so the true number
of recorded visits is at least `n * walksPerNode`; the `totalVisits == 0`
fallback is unreachable as long as no node's true visit count reaches
`2^32`, in which case the stored counter agrees with the true count and the
stored total is positive. -/
theorem claim_C4_amended (g : Graph) (alpha : ℚ) (walksPerNode : Nat)
    (draws : List ℚ) (counts : List Nat) (rest : List ℚ)
    (hn : 1 ≤ g.nodes) (hw : 1 ≤ walksPerNode)
    (h : randomWalkCounts 0 g alpha walksPerNode draws = some (counts, rest)) :
    g.nodes * walksPerNode ≤ counts.sum
      ∧ ((∀ c ∈ counts, c < u32) →
          randomWalkCounts u32 g alpha walksPerNode draws = some (counts, rest)
            ∧ counts.sum ≠ 0) := by
  have hsum := randomWalkCounts_zero_sum_ge g alpha walksPerNode draws (counts, rest) h
  refine ⟨hsum, fun hlt => ⟨?_, ?_⟩⟩
  · rw [randomWalkCounts_sim, h]
    simp only [Option.map_some']
    have hid : counts.map (· % u32) = counts := by
      have h1 : counts.map (· % u32) = counts.map id :=
        List.map_congr_left (fun c hc => Nat.mod_eq_of_lt (hlt c hc))
      rw [h1, List.map_id]
    rw [hid]
  · have h1 : 1 ≤ g.nodes * walksPerNode := Nat.mul_pos hn hw
    have h2 : g.nodes * walksPerNode ≤ counts.sum := hsum
    omega

/-- Witness for the amended C4 at a one-walk run that stops immediately. -/
theorem claim_C4_witness :
    (⟨1, [], true⟩ : Graph).nodes * 1 ≤ ([1] : List Nat).sum
      ∧ randomWalkCounts u32 ⟨1, [], true⟩ (mkRat 1 2) 1 [mkRat 1 2]
          = some ([1], []) := by
  have h := claim_C4_amended ⟨1, [], true⟩ (mkRat 1 2) 1 [mkRat 1 2] [1] []
    (by norm_num) (by norm_num) (by decide)
  exact ⟨h.1, (h.2 (by decide)).1⟩

/-- C5 (counterexample): the managed kernel's counter is a 32-bit
`Uint32Array`, not a 64-bit counter — on the self-loop run the stored
counter ends at `0` while the untruncated count is `2^32`, so visit counts
are wrapped modulo `2^32`. -/
theorem claim_C5_counterexample :
    ¬ (∀ (g : Graph) (alpha : ℚ) (walksPerNode : Nat) (draws : List ℚ)
        (res : List Nat × List ℚ),
        randomWalkCounts u32 g alpha walksPerNode draws = some res →
        randomWalkCounts 0 g alpha walksPerNode draws = some res) := by
  intro h
  have h1 := h selfLoop (1 / 2) 100 wrapDraws ([0], []) selfLoop_wrap_run
  rw [selfLoop_true_run] at h1
  simp [u32] at h1

/-- C5 (amended): the native (C++) kernel keeps 64-bit counters; the managed
kernel's 32-bit counter is not truncated as long as every node's true visit
count stays below `2^32`, in which case it records exactly the true counts. -/
theorem claim_C5_amended (g : Graph) (alpha : ℚ) (walksPerNode : Nat)
    (draws : List ℚ) (counts : List Nat) (rest : List ℚ)
    (h : randomWalkCounts 0 g alpha walksPerNode draws = some (counts, rest))
    (hlt : ∀ c ∈ counts, c < u32) :
    randomWalkCounts u32 g alpha walksPerNode draws = some (counts, rest) := by
  rw [randomWalkCounts_sim, h]
  simp only [Option.map_some']
  have h1 : counts.map (· % u32) = counts.map id :=
    List.map_congr_left (fun c hc => Nat.mod_eq_of_lt (hlt c hc))
  rw [h1, List.map_id]

/-- Witness for the amended C5 at the same immediate-stop run. -/
theorem claim_C5_witness :
    randomWalkCounts u32 ⟨1, [], true⟩ (mkRat 1 2) 1 [mkRat 1 2] = some ([1], []) :=
  claim_C5_amended ⟨1, [], true⟩ (mkRat 1 2) 1 [mkRat 1 2] [1] []
    (by decide) (by decide)

/-- C6 (counterexample): the three `_malloc` calls precede the
`try/finally`, so when the third allocation raises, the first two buffers
are allocated and never freed — not every exit path releases all buffers
obtained so far. -/
theorem claim_C6_counterexample :
    ¬ (∀ (env : BridgeEnv) (kres : List ℚ) (which : Nat),
        MemEvent.alloc which ∈ (executePowerIterationWASM env kres).1 →
        MemEvent.free which ∈ (executePowerIterationWASM env kres).1) := by
  intro h
  have h1 := h ⟨true, true, false, true⟩ [] 1 (by decide)
  exact absurd h1 (by decide)

/-- C6 (amended): once all three allocations succeed, both wasm paths free
every allocated buffer on every exit path, including when the compiled
kernel call raises; an allocation failure part-way, however, escapes before
the `try` and leaks the buffers already obtained. -/
theorem claim_C6_amended (env : BridgeEnv) (kres : List ℚ)
    (h1 : env.malloc1Ok = true) (h2 : env.malloc2Ok = true)
    (h3 : env.malloc3Ok = true) :
    (∀ which, MemEvent.alloc which ∈ (executePowerIterationWASM env kres).1 →
      MemEvent.free which ∈ (executePowerIterationWASM env kres).1)
    ∧ (∀ which, MemEvent.alloc which ∈ (executeRandomWalkWASM env kres).1 →
      MemEvent.free which ∈ (executeRandomWalkWASM env kres).1) := by
  obtain ⟨m1, m2, m3, kOk⟩ := env
  dsimp only at h1 h2 h3
  subst h1
  subst h2
  subst h3
  have hlog : (bridgeRun ⟨true, true, true, kOk⟩ kres).1
      = [MemEvent.alloc 1, MemEvent.alloc 2, MemEvent.alloc 3,
         MemEvent.free 1, MemEvent.free 2, MemEvent.free 3] := by
    cases kOk <;> rfl
  constructor <;> intro which hw
  · rw [show executePowerIterationWASM ⟨true, true, true, kOk⟩ kres
        = bridgeRun ⟨true, true, true, kOk⟩ kres from rfl, hlog] at hw ⊢
    simp only [List.mem_cons, List.not_mem_nil, or_false] at hw
    rcases hw with h | h | h | h | h | h <;> simp_all
  · rw [show executeRandomWalkWASM ⟨true, true, true, kOk⟩ kres
        = bridgeRun ⟨true, true, true, kOk⟩ kres from rfl, hlog] at hw ⊢
    simp only [List.mem_cons, List.not_mem_nil, or_false] at hw
    rcases hw with h | h | h | h | h | h <;> simp_all

/-- Witness for the amended C6 on the kernel-raise path. -/
theorem claim_C6_witness :
    MemEvent.free 3 ∈ (executePowerIterationWASM ⟨true, true, true, false⟩ []).1 :=
  (claim_C6_amended ⟨true, true, true, false⟩ [] rfl rfl rfl).1 3 (by decide)

/-- The runtime environment used by the worker counterexamples. -/
def env0 : WorkerEnv := ⟨[], ⟨true, true, true, true⟩, []⟩

/-- C7 (counterexample): the worker's `CANCEL` handler is a no-op (the
source notes cancellation is unsupported), so a `RESULT` for a task id is
still delivered by messages processed after a `CANCEL` for that id. -/
theorem claim_C7_counterexample :
    ¬ (∀ (pre post : List (WorkerEnv × WorkerMsg)) (e : WorkerEnv) (t : String)
        (r : WorkerResult),
        r ∈ (processTrace (pre ++ (e, WorkerMsg.cancel t) :: post)).drop
              (processTrace (pre ++ [(e, WorkerMsg.cancel t)])).length →
        ¬ carriesResult t r) := by
  intro h
  have hmem : WorkerResult.result "t1" (powerIterationJS ⟨1, [], true⟩ 1 1)
      ∈ (processTrace ([] ++ (env0, WorkerMsg.cancel "t1")
          :: [(env0, WorkerMsg.compute "t1" "power-iteration-js" ⟨1, [], true⟩ 1 1)])).drop
          (processTrace ([] ++ [(env0, WorkerMsg.cancel "t1")])).length := by
    simp [processTrace, processMessage, handleCompute]
  exact h [] [(env0, WorkerMsg.compute "t1" "power-iteration-js" ⟨1, [], true⟩ 1 1)]
    env0 "t1" _ hmem rfl

/-- C7 (amended): the worker accepts `Cancel` messages but ignores them — no
state exists to mark a task `Cancelled`, a cancel emits nothing, and the
outputs of the other messages in the queue are exactly what they would have
been without the cancel. -/
theorem claim_C7_amended :
    (∀ (e : WorkerEnv) (t : String), processMessage e (WorkerMsg.cancel t) = [])
    ∧ ∀ (pre post : List (WorkerEnv × WorkerMsg)) (e : WorkerEnv) (t : String),
        processTrace (pre ++ (e, WorkerMsg.cancel t) :: post)
          = processTrace pre ++ processTrace post := by
  refine ⟨fun e t => rfl, fun pre post e t => ?_⟩
  rw [show pre ++ (e, WorkerMsg.cancel t) :: post
      = pre ++ [(e, WorkerMsg.cancel t)] ++ post by simp,
    processTrace_append, processTrace_append]
  simp [processTrace, processMessage]

/-- C8: a compute message whose algorithm identifier is none of the four
supported combinations is answered by exactly one `Error` message carrying
that task's id and the descriptive `Unknown algorithm` text (never a
`Result`), and the queue keeps being processed: surrounding messages
produce exactly their usual outputs. -/
theorem claim_C8_unknown_algorithm (e : WorkerEnv) (taskId algorithm : String)
    (g : Graph) (alpha : ℚ) (count : Nat)
    (h1 : algorithm ≠ "power-iteration-wasm") (h2 : algorithm ≠ "power-iteration-js")
    (h3 : algorithm ≠ "random-walk-wasm") (h4 : algorithm ≠ "random-walk-js") :
    processMessage e (WorkerMsg.compute taskId algorithm g alpha count)
      = [WorkerResult.error taskId ("Unknown algorithm: " ++ algorithm)]
    ∧ ∀ (pre post : List (WorkerEnv × WorkerMsg)),
        processTrace (pre ++ (e, WorkerMsg.compute taskId algorithm g alpha count) :: post)
          = processTrace pre
              ++ WorkerResult.error taskId ("Unknown algorithm: " ++ algorithm)
              :: processTrace post := by
  have hmain : processMessage e (WorkerMsg.compute taskId algorithm g alpha count)
      = [WorkerResult.error taskId ("Unknown algorithm: " ++ algorithm)] := by
    show handleCompute e taskId algorithm g alpha count = _
    unfold handleCompute
    rw [if_neg h1, if_neg h2, if_neg h3, if_neg h4]
  refine ⟨hmain, fun pre post => ?_⟩
  rw [show pre ++ (e, WorkerMsg.compute taskId algorithm g alpha count) :: post
      = pre ++ [(e, WorkerMsg.compute taskId algorithm g alpha count)] ++ post by simp,
    processTrace_append, processTrace_append]
  simp [processTrace, hmain]

/-- Witness for C8 with the unknown identifier `"foo"`. -/
theorem claim_C8_witness :
    processMessage env0 (WorkerMsg.compute "t1" "foo" ⟨1, [], true⟩ (mkRat 1 2) 1)
      = [WorkerResult.error "t1" ("Unknown algorithm: " ++ "foo")] :=
  (claim_C8_unknown_algorithm env0 "t1" "foo" ⟨1, [], true⟩ (mkRat 1 2) 1
    (by decide) (by decide) (by decide) (by decide)).1

end PageRank
